import Mathlib

/- Verification of the wait strategies of src/throttle.rs: the fixed throttle
   waiter, the exponential backoff waiter, and the thread-backed timer future.
   Machine arithmetic is modelled exactly: `f32` values are dyadic rationals
   produced by round-to-nearest-even binary32 rounding, durations are counted
   in nanoseconds, and the `as u64` cast saturates as in Rust. -/

/-- Fuel-driven floor of log base 2: `log2F fuel n` halves `n` at most `fuel`
times.  Structural recursion on the fuel keeps it kernel-computable. -/
def log2F : ℕ → ℕ → ℕ
  | 0, _ => 0
  | fuel + 1, n => if n ≤ 1 then 0 else log2F fuel (n / 2) + 1

/-- Floor of log base 2 of a positive natural number. -/
def natLog2 (n : ℕ) : ℕ := log2F n n

/-- Round `n / 2 ^ j` to the nearest natural number, ties to even. -/
def rhneN (n j : ℕ) : ℕ :=
  let q := n / 2 ^ j
  let r := n % 2 ^ j
  let half := 2 ^ (j - 1)
  if r < half then q
  else if half < r then q + 1
  else if q % 2 = 0 then q else q + 1

/-- Scale of the binary32 grid at the binade of the nonzero dyadic rational
`n * 2 ^ f` (whose floor of log base 2 is `natLog2 n + f`), clamped at the
subnormal scale `-149`. -/
def f32se (n : ℕ) (f : ℤ) : ℤ := max ((natLog2 n : ℤ) + f - 23) (-149)

/-- Mantissa of the binary32 rounding of `n * 2 ^ f`: the input scaled onto
the grid of its binade, rounded to the nearest integer with ties to even
(exact when the input already lies on the grid). -/
def f32mant (n : ℕ) (f : ℤ) : ℕ :=
  if f32se n f ≤ f then n * 2 ^ (f - f32se n f).toNat else rhneN n (f32se n f - f).toNat

/-- Binary32 round-to-nearest-even of the nonnegative dyadic rational
`n * 2 ^ f`.  Returns `none` on overflow to infinity, otherwise `some (r, se)`
whose value is `r * 2 ^ se`. -/
def roundPosM (n : ℕ) (f : ℤ) : Option (ℕ × ℤ) :=
  if n = 0 then some (0, 0)
  else if 2 ^ (128 - f32se n f).toNat ≤ f32mant n f then none
  else some (f32mant n f, f32se n f)

/-- A binary32 floating-point value: NaN, a signed infinity, or a finite value
`n * 2 ^ e`, negated when the sign flag is true. -/
inductive F32
  | nan : F32
  | inf : Bool → F32
  | fin : Bool → ℕ → ℤ → F32
deriving DecidableEq

/-- Rebuild an `F32` from a rounding result: overflow gives a signed infinity. -/
def roundDy (neg : Bool) (n : ℕ) (f : ℤ) : F32 :=
  match roundPosM n f with
  | none => F32.inf neg
  | some (r, se) => F32.fin neg r se

/-- The Rust cast `x as f32` on a nonnegative integer (as in
`Duration::as_nanos() as f32`): round-to-nearest-even conversion. -/
def toF32ofNat (d : ℕ) : F32 := roundDy false d 0

/-- Binary32 multiplication with the IEEE special-value rules. -/
def F32.mul : F32 → F32 → F32
  | .nan, _ => .nan
  | .inf _, .nan => .nan
  | .fin _ _ _, .nan => .nan
  | .inf s, .inf t => .inf (xor s t)
  | .inf s, .fin t n _ => if n = 0 then .nan else .inf (xor s t)
  | .fin s n _, .inf t => if n = 0 then .nan else .inf (xor s t)
  | .fin s n e, .fin t m f => roundDy (xor s t) (n * m) (e + f)

/-- Floor of the dyadic rational `r * 2 ^ e`. -/
def dyFloor (r : ℕ) (e : ℤ) : ℕ :=
  if 0 ≤ e then r * 2 ^ e.toNat else r / 2 ^ (-e).toNat

/-- The Rust saturating cast `x as u64` on an `f32`: NaN goes to 0, negative
values truncate or clamp to 0, and large values clamp to `u64::MAX`. -/
def F32.toU64sat : F32 → ℕ
  | .nan => 0
  | .inf neg => if neg then 0 else 2 ^ 64 - 1
  | .fin neg n e => if neg then 0 else min (dyFloor n e) (2 ^ 64 - 1)

/-- Decides equality of the dyadic rationals `n * 2 ^ e` and `m * 2 ^ f`. -/
def dyEqB (n : ℕ) (e : ℤ) (m : ℕ) (f : ℤ) : Bool :=
  if f ≤ e then n * 2 ^ (e - f).toNat == m else n == m * 2 ^ (f - e).toNat

/-- An `F32` is wellformed when it is a value binary32 arithmetic can produce;
for finite values this says binary32 rounding leaves the value fixed. -/
def F32.wfB : F32 → Bool
  | .nan => true
  | .inf _ => true
  | .fin _ n e =>
    match roundPosM n e with
    | none => false
    | some (r, se) => dyEqB n e r se

/-- The comparison `1 < x` on an `F32` (false on NaN). -/
def F32.gtOneB : F32 → Bool
  | .inf false => true
  | .fin false n e => if 0 ≤ e then decide (1 < n * 2 ^ e.toNat) else decide (2 ^ (-e).toNat < n)
  | _ => false

/-- Error type of the `Waiter` trait (defined at the crate root; the spec's
error taxonomy surfaces only the `NotStarted` precondition violation). -/
inductive WaiterError
  | notStarted : WaiterError
deriving DecidableEq

/-- The exponential backoff waiter: configuration `initial`, `multiplier`,
`cap`, and the mutable current delay `next` (`None` until started).  Durations
are nanosecond counts. -/
structure ExponentialBackoffWaiter where
  next : Option ℕ
  initial : ℕ
  multiplier : F32
  cap : ℕ
deriving DecidableEq

/-- Constructor `ExponentialBackoffWaiter::new`. -/
def ExponentialBackoffWaiter.new (initial : ℕ) (multiplier : F32) (cap : ℕ) :
    ExponentialBackoffWaiter :=
  { next := none, initial := initial, multiplier := multiplier, cap := cap }

/-- Method `start`: sets the current delay cell to `initial`. -/
def ExponentialBackoffWaiter.start (s : ExponentialBackoffWaiter) : ExponentialBackoffWaiter :=
  { s with next := some s.initial }

/-- Method `restart`: fails with `NotStarted` when no delay cell exists,
otherwise resets it to `initial`. -/
def ExponentialBackoffWaiter.restart (s : ExponentialBackoffWaiter) :
    Except WaiterError ExponentialBackoffWaiter :=
  match s.next with
  | none => .error .notStarted
  | some _ => .ok { s with next := some s.initial }

/-- Method `wait`: reads the current delay, computes the next throttle by
binary32 multiplication with the cap applied, commits it, then sleeps for the
pre-update value.  The result carries the new state and the duration slept. -/
def ExponentialBackoffWaiter.wait (s : ExponentialBackoffWaiter) :
    Except WaiterError (ExponentialBackoffWaiter × ℕ) :=
  match s.next with
  | none => .error .notStarted
  | some current =>
    let current_nsec := toF32ofNat current
    let next_duration := F32.toU64sat (F32.mul current_nsec s.multiplier)
    let next_duration := if s.cap < next_duration then s.cap else next_duration
    .ok ({ s with next := some next_duration }, current)

deriving instance DecidableEq for Except

/-- The value returned by an `async_wait` call: either an already-resolved
result or a timer future that suspends for the given duration. -/
inductive AsyncWaitFuture
  | ready : Except WaiterError Unit → AsyncWaitFuture
  | timer : ℕ → AsyncWaitFuture
deriving DecidableEq

/-- Method `async_wait`: on a missing delay cell returns an already-resolved
failure; otherwise performs the same read-compute-commit sequence as `wait` and
returns a timer future for the pre-update value. -/
def ExponentialBackoffWaiter.async_wait (s : ExponentialBackoffWaiter) :
    ExponentialBackoffWaiter × AsyncWaitFuture :=
  match s.next with
  | none => (s, .ready (.error .notStarted))
  | some current =>
    let current_nsec := toF32ofNat current
    let next_duration := F32.toU64sat (F32.mul current_nsec s.multiplier)
    let next_duration := if s.cap < next_duration then s.cap else next_duration
    ({ s with next := some next_duration }, .timer current)

/-- One operation of the `Waiter` interface, for traces. -/
inductive WOp
  | startOp : WOp
  | restartOp : WOp
  | waitOp : WOp
  | asyncWaitOp : WOp
deriving DecidableEq

/-- The state left behind by one `Waiter` operation (failed operations leave
the state unchanged, as in the source). -/
def stepEB (s : ExponentialBackoffWaiter) : WOp → ExponentialBackoffWaiter
  | .startOp => s.start
  | .restartOp => match s.restart with | .ok t => t | .error _ => s
  | .waitOp => match s.wait with | .ok (t, _) => t | .error _ => s
  | .asyncWaitOp => s.async_wait.1

/-- Run a sequence of `Waiter` operations from a state. -/
def runEB (s : ExponentialBackoffWaiter) (ops : List WOp) : ExponentialBackoffWaiter :=
  ops.foldl stepEB s

/-- The fixed throttle waiter: a single immutable duration. -/
structure ThrottleWaiter where
  throttle : ℕ
deriving DecidableEq

/-- Method `wait` of the throttle waiter: sleeps for `throttle`, succeeds. -/
def ThrottleWaiter.wait (s : ThrottleWaiter) : Except WaiterError ℕ := .ok s.throttle

/-- Method `async_wait` of the throttle waiter: a timer future for `throttle`. -/
def ThrottleWaiter.async_wait (s : ThrottleWaiter) : AsyncWaitFuture := .timer s.throttle

/-- Modelled from the spec: the `Waiter` trait's default `start` (crate root,
not under src/) is a no-op for the stateless throttle strategy. -/
def ThrottleWaiter.start (s : ThrottleWaiter) : ThrottleWaiter := s

/-- Modelled from the spec: the `Waiter` trait's default `restart` (crate root,
not under src/) is a no-op returning success for the stateless strategy. -/
def ThrottleWaiter.restart (s : ThrottleWaiter) : Except WaiterError ThrottleWaiter := .ok s

/-- Shared state between `ThrottleTimerFuture` and its timing thread; wakers
are identified by numbers. -/
structure SharedState where
  completed : Bool
  waker : Option ℕ
deriving DecidableEq

/-- The shared state as built by `ThrottleTimerFuture::new`, before the timing
thread fires. -/
def ThrottleTimerFuture.new : SharedState := { completed := false, waker := none }

/-- One poll of `ThrottleTimerFuture` by a task with waker `w`: the state left
behind and, when ready, the resolved value (the poll stores the fresh waker and
reports pending whenever the timer has not completed). -/
def pollTimer (st : SharedState) (w : ℕ) : SharedState × Option (Except WaiterError Unit) :=
  if st.completed then (st, some (.ok ()))
  else ({ completed := st.completed, waker := some w }, none)

/-- The timing thread's action when the sleep elapses: set `completed`, take
the registered waker and wake it.  Returns the state and the woken waker. -/
def fireTimer (st : SharedState) : SharedState × Option ℕ :=
  ({ completed := true, waker := none }, st.waker)

/-- An event touching the timer's shared state. -/
inductive TimerEvent
  | pollEv : ℕ → TimerEvent
  | fireEv : TimerEvent
deriving DecidableEq

/-- The state transformation of one timer event. -/
def timerStep (st : SharedState) : TimerEvent → SharedState
  | .pollEv w => (pollTimer st w).1
  | .fireEv => (fireTimer st).1

/-- Run a sequence of timer events. -/
def runTimer (st : SharedState) (evs : List TimerEvent) : SharedState :=
  evs.foldl timerStep st

/-- A store of `RefCell<Duration>` contents addressed by list index, used to
make the aliasing behaviour of `#[derive(Clone)]` explicit: cloning a
`RefCell` yields a fresh cell holding a copy of the value, never a shared
cell. -/
abbrev RCStore : Type := List ℕ

/-- The exponential backoff waiter with its delay cell held by address in an
`RCStore`. -/
structure EBWaiterH where
  next : Option ℕ
  initial : ℕ
  multiplier : F32
  cap : ℕ
deriving DecidableEq

/-- Derived `Clone` of the waiter over a store: the configuration is copied,
and a started waiter's delay cell is copied into a freshly allocated cell. -/
def cloneEB (s : EBWaiterH) (σ : RCStore) : EBWaiterH × RCStore :=
  match s.next with
  | none => (s, σ)
  | some a => ({ s with next := some σ.length }, σ ++ [((σ.get? a).getD 0)])

/-- Method `start` over a store: allocates a fresh cell holding `initial`. -/
def startH (s : EBWaiterH) (σ : RCStore) : EBWaiterH × RCStore :=
  ({ s with next := some σ.length }, σ ++ [s.initial])

/-- Method `restart` over a store: writes `initial` into the existing cell. -/
def restartH (s : EBWaiterH) (σ : RCStore) : Except WaiterError RCStore :=
  match s.next with
  | none => .error .notStarted
  | some a => .ok (σ.set a s.initial)

/-- Method `wait` over a store: reads the cell, writes the advanced delay back
into the same cell, and reports the duration slept. -/
def waitH (s : EBWaiterH) (σ : RCStore) : Except WaiterError (RCStore × ℕ) :=
  match s.next with
  | none => .error .notStarted
  | some a =>
    let current := (σ.get? a).getD 0
    let current_nsec := toF32ofNat current
    let next_duration := F32.toU64sat (F32.mul current_nsec s.multiplier)
    let next_duration := if s.cap < next_duration then s.cap else next_duration
    .ok (σ.set a next_duration, current)

/-- Method `async_wait` over a store: on a missing cell an already-resolved
failure with the store untouched; otherwise the same read-compute-commit
sequence as `waitH` into the same cell, returning a timer future for the
pre-update value. -/
def asyncWaitH (s : EBWaiterH) (σ : RCStore) : RCStore × AsyncWaitFuture :=
  match s.next with
  | none => (σ, .ready (.error .notStarted))
  | some a =>
    let current := (σ.get? a).getD 0
    let current_nsec := toF32ofNat current
    let next_duration := F32.toU64sat (F32.mul current_nsec s.multiplier)
    let next_duration := if s.cap < next_duration then s.cap else next_duration
    (σ.set a next_duration, .timer current)

/-- Value of the dyadic rational `n * 2 ^ e` as a rational number (proof-layer
only). -/
def dyv (n : ℕ) (e : ℤ) : ℚ := (n : ℚ) * 2 ^ e

/-- The binary32 value 2.0, used as a concrete multiplier in witnesses. -/
def mulTwoF32 : F32 := F32.fin false (2 ^ 23) (-22)

/-- The fuel-driven log is a floor of log base 2 whenever the fuel suffices. -/
theorem log2F_bounds (fuel : ℕ) : ∀ n : ℕ, 1 ≤ n → n ≤ fuel →
    2 ^ log2F fuel n ≤ n ∧ n < 2 ^ (log2F fuel n + 1) := by
  induction fuel with
  | zero => intro n h1 h2; omega
  | succ fuel ih =>
    intro n h1 h2
    rw [log2F]
    by_cases hn : n ≤ 1
    · rw [if_pos hn]
      have hn1 : n = 1 := by omega
      subst hn1; simp
    · rw [if_neg hn]
      obtain ⟨lo, hi⟩ := ih (n / 2) (by omega) (by omega)
      have e1 : (2 : ℕ) ^ (log2F fuel (n / 2) + 1) = 2 ^ log2F fuel (n / 2) * 2 :=
        pow_succ 2 _
      have e2 : (2 : ℕ) ^ (log2F fuel (n / 2) + 1 + 1) = 2 ^ log2F fuel (n / 2) * 2 * 2 := by
        rw [pow_succ, pow_succ]
      rw [e1] at hi
      rw [e1, e2]
      omega

/-- Lower bound of the binade of `n`. -/
theorem natLog2_le {n : ℕ} (h : 1 ≤ n) : 2 ^ natLog2 n ≤ n :=
  (log2F_bounds n n h le_rfl).1

/-- Upper bound of the binade of `n`. -/
theorem lt_natLog2 {n : ℕ} (h : 1 ≤ n) : n < 2 ^ (natLog2 n + 1) :=
  (log2F_bounds n n h le_rfl).2

/-- Rounding half to even overshoots `n / 2 ^ j` by at most half a step. -/
theorem rhneN_le (n j : ℕ) : 2 ^ j * rhneN n j ≤ n + 2 ^ (j - 1) := by
  have hqr : 2 ^ j * (n / 2 ^ j) + n % 2 ^ j = n := Nat.div_add_mod n (2 ^ j)
  have hr : n % 2 ^ j < 2 ^ j := Nat.mod_lt n (Nat.pow_pos (by norm_num))
  have hpow : (2 ^ j = 1 ∧ 2 ^ (j - 1) = 1) ∨ 2 ^ j = 2 * 2 ^ (j - 1) := by
    cases j with
    | zero => exact Or.inl ⟨rfl, rfl⟩
    | succ k => right; rw [Nat.succ_sub_one, pow_succ]; ring
  have hd : 2 ^ j * (n / 2 ^ j + 1) = 2 ^ j * (n / 2 ^ j) + 2 ^ j := by ring
  simp only [rhneN]
  split_ifs <;> omega

/-- Rounding half to even undershoots `n / 2 ^ j` by at most half a step. -/
theorem le_rhneN (n j : ℕ) : n ≤ 2 ^ j * rhneN n j + 2 ^ (j - 1) := by
  have hqr : 2 ^ j * (n / 2 ^ j) + n % 2 ^ j = n := Nat.div_add_mod n (2 ^ j)
  have hr : n % 2 ^ j < 2 ^ j := Nat.mod_lt n (Nat.pow_pos (by norm_num))
  have hpow : (2 ^ j = 1 ∧ 2 ^ (j - 1) = 1) ∨ 2 ^ j = 2 * 2 ^ (j - 1) := by
    cases j with
    | zero => exact Or.inl ⟨rfl, rfl⟩
    | succ k => right; rw [Nat.succ_sub_one, pow_succ]; ring
  have hd : 2 ^ j * (n / 2 ^ j + 1) = 2 ^ j * (n / 2 ^ j) + 2 ^ j := by ring
  simp only [rhneN]
  split_ifs <;> omega

/-- Rounding half to even never drops below a whole multiple below the input. -/
theorem rhneN_ge (n j k : ℕ) (h : k * 2 ^ j ≤ n) : k ≤ rhneN n j := by
  have hq : k ≤ n / 2 ^ j := (Nat.le_div_iff_mul_le (Nat.pow_pos (by norm_num))).mpr h
  simp only [rhneN]
  split_ifs <;> omega

/-- Rescaling a dyadic value to a smaller exponent. -/
theorem dyv_shift (n : ℕ) {e f : ℤ} (h : f ≤ e) :
    dyv n e = dyv (n * 2 ^ (e - f).toNat) f := by
  unfold dyv
  push_cast
  rw [mul_assoc, ← zpow_natCast (2 : ℚ) (e - f).toNat, Int.toNat_of_nonneg (sub_nonneg.mpr h),
    ← zpow_add₀ (two_ne_zero) (e - f) f, sub_add_cancel]

/-- Comparison of dyadic values at a common exponent. -/
theorem dyv_le_iff {a b : ℕ} {g : ℤ} : dyv a g ≤ dyv b g ↔ a ≤ b := by
  unfold dyv
  rw [mul_le_mul_right (zpow_pos (by norm_num : (0 : ℚ) < 2) g)]
  exact Nat.cast_le

/-- Strict comparison of dyadic values at a common exponent. -/
theorem dyv_lt_iff {a b : ℕ} {g : ℤ} : dyv a g < dyv b g ↔ a < b := by
  unfold dyv
  rw [mul_lt_mul_right (zpow_pos (by norm_num : (0 : ℚ) < 2) g)]
  exact Nat.cast_lt

/-- Equality of dyadic values at a common exponent. -/
theorem dyv_eq_iff {a b : ℕ} {g : ℤ} : dyv a g = dyv b g ↔ a = b := by
  constructor
  · intro h
    exact le_antisymm (dyv_le_iff.mp h.le) (dyv_le_iff.mp h.ge)
  · intro h; rw [h]

/-- Addition of dyadic values at a common exponent. -/
theorem dyv_add (a b : ℕ) (g : ℤ) : dyv a g + dyv b g = dyv (a + b) g := by
  unfold dyv; push_cast; ring

/-- Dyadic values are nonnegative. -/
theorem dyv_nonneg (n : ℕ) (e : ℤ) : 0 ≤ dyv n e := by
  unfold dyv
  positivity

/-- Dyadic values with positive mantissa are positive. -/
theorem dyv_pos {n : ℕ} (e : ℤ) (h : 1 ≤ n) : 0 < dyv n e := by
  unfold dyv
  have hn : (0 : ℚ) < n := by exact_mod_cast h
  positivity

/-- Multiplication of dyadic values. -/
theorem dyv_mul (a b : ℕ) (e f : ℤ) : dyv a e * dyv b f = dyv (a * b) (e + f) := by
  unfold dyv
  push_cast
  rw [zpow_add₀ (two_ne_zero)]
  ring

/-- A natural number as a dyadic value. -/
theorem dyv_cast (d : ℕ) : (d : ℚ) = dyv d 0 := by
  unfold dyv; simp

/-- Monotonicity of a power of two in its exponent, in dyadic form. -/
theorem dyv_one_mono {e g : ℤ} (h : e ≤ g) : dyv 1 e ≤ dyv 1 g := by
  rw [dyv_shift 1 h]
  exact dyv_le_iff.mpr (by simpa using Nat.one_le_two_pow)

/-- Strict monotonicity transfer: a strict comparison of powers of two forces
the exponent comparison. -/
theorem dyv_one_lt (e g : ℤ) (h : dyv 1 e < dyv 1 g) : e < g := by
  by_contra hc
  exact absurd (dyv_one_mono (by omega)) (not_le.mpr h)

/-- The binade of `n * 2 ^ f` spans `[2 ^ (natLog2 n + f), 2 ^ (natLog2 n + f + 1))`. -/
theorem dyv_binade {n : ℕ} (hn : 1 ≤ n) (f : ℤ) :
    dyv 1 ((natLog2 n : ℤ) + f) ≤ dyv n f ∧ dyv n f < dyv 1 ((natLog2 n : ℤ) + f + 1) := by
  have h1 : dyv 1 ((natLog2 n : ℤ) + f) = dyv (2 ^ natLog2 n) f := by
    rw [dyv_shift 1 (show f ≤ (natLog2 n : ℤ) + f by omega)]
    have e1 : ((natLog2 n : ℤ) + f - f) = ((natLog2 n : ℕ) : ℤ) := by ring
    rw [e1, Int.toNat_natCast, one_mul]
  have h2 : dyv 1 ((natLog2 n : ℤ) + f + 1) = dyv (2 ^ (natLog2 n + 1)) f := by
    rw [dyv_shift 1 (show f ≤ (natLog2 n : ℤ) + f + 1 by omega)]
    have e2 : ((natLog2 n : ℤ) + f + 1 - f) = ((natLog2 n + 1 : ℕ) : ℤ) := by push_cast; ring
    rw [e2, Int.toNat_natCast, one_mul]
  constructor
  · rw [h1]; exact dyv_le_iff.mpr (natLog2_le hn)
  · rw [h2]; exact dyv_lt_iff.mpr (lt_natLog2 hn)

/-- The rounded value overshoots the input by at most half a grid step. -/
theorem f32mant_upper (n : ℕ) (f : ℤ) :
    dyv (f32mant n f) (f32se n f) ≤ dyv n f + dyv 1 (f32se n f - 1) := by
  unfold f32mant
  split_ifs with h
  · rw [← dyv_shift n h]
    exact le_add_of_nonneg_right (dyv_nonneg _ _)
  · push_neg at h
    rw [dyv_shift (rhneN n (f32se n f - f).toNat) (le_of_lt h),
      dyv_shift 1 (show f ≤ f32se n f - 1 by omega), one_mul, dyv_add]
    apply dyv_le_iff.mpr
    have hj : (f32se n f - 1 - f).toNat = (f32se n f - f).toNat - 1 := by omega
    rw [hj]
    calc rhneN n (f32se n f - f).toNat * 2 ^ (f32se n f - f).toNat
        = 2 ^ (f32se n f - f).toNat * rhneN n (f32se n f - f).toNat := by ring
      _ ≤ n + 2 ^ ((f32se n f - f).toNat - 1) := rhneN_le n _

/-- The rounded value undershoots the input by at most half a grid step. -/
theorem f32mant_lower (n : ℕ) (f : ℤ) :
    dyv n f ≤ dyv (f32mant n f) (f32se n f) + dyv 1 (f32se n f - 1) := by
  unfold f32mant
  split_ifs with h
  · rw [← dyv_shift n h]
    exact le_add_of_nonneg_right (dyv_nonneg _ _)
  · push_neg at h
    rw [dyv_shift (rhneN n (f32se n f - f).toNat) (le_of_lt h),
      dyv_shift 1 (show f ≤ f32se n f - 1 by omega), one_mul, dyv_add]
    apply dyv_le_iff.mpr
    have hj : (f32se n f - 1 - f).toNat = (f32se n f - f).toNat - 1 := by omega
    rw [hj]
    calc n ≤ 2 ^ (f32se n f - f).toNat * rhneN n (f32se n f - f).toNat
          + 2 ^ ((f32se n f - f).toNat - 1) := le_rhneN n _
      _ = rhneN n (f32se n f - f).toNat * 2 ^ (f32se n f - f).toNat
          + 2 ^ ((f32se n f - f).toNat - 1) := by ring

/-- The rounded value never drops below a grid point that the input reaches. -/
theorem f32mant_ge (n : ℕ) (f : ℤ) (k : ℕ) (hk : dyv k (f32se n f) ≤ dyv n f) :
    k ≤ f32mant n f := by
  unfold f32mant
  split_ifs with h
  · rw [dyv_shift n h] at hk
    exact dyv_le_iff.mp hk
  · push_neg at h
    rw [dyv_shift k (le_of_lt h)] at hk
    exact rhneN_ge n _ k (dyv_le_iff.mp hk)

/-- The rounded mantissa never exceeds the binade top `2 ^ 24`. -/
theorem f32mant_le_pow {n : ℕ} (hn : 1 ≤ n) (f : ℤ) : f32mant n f ≤ 2 ^ 24 := by
  have hub := f32mant_upper n f
  have hbin := (dyv_binade hn f).2
  have hEs : (natLog2 n : ℤ) + f - 23 ≤ f32se n f := le_max_left _ _
  have h1 : dyv 1 ((natLog2 n : ℤ) + f + 1) ≤ dyv 1 (f32se n f + 24) := dyv_one_mono (by omega)
  have h2 : dyv (f32mant n f) (f32se n f) < dyv 1 (f32se n f + 24) + dyv 1 (f32se n f - 1) :=
    lt_of_le_of_lt hub (by
      apply add_lt_add_of_lt_of_le (lt_of_lt_of_le hbin h1) le_rfl)
  have e1 : dyv (f32mant n f) (f32se n f) = dyv (f32mant n f * 2) (f32se n f - 1) := by
    rw [dyv_shift (f32mant n f) (show f32se n f - 1 ≤ f32se n f by omega)]
    have e0 : (f32se n f - (f32se n f - 1)).toNat = 1 := by omega
    rw [e0, pow_one]
  have e2 : dyv 1 (f32se n f + 24) = dyv (2 ^ 25) (f32se n f - 1) := by
    rw [dyv_shift 1 (show f32se n f - 1 ≤ f32se n f + 24 by omega), one_mul]
    have e0 : (f32se n f + 24 - (f32se n f - 1)).toNat = 25 := by omega
    rw [e0]
  rw [e1, e2, dyv_add] at h2
  have := dyv_lt_iff.mp h2
  have hp : (2 : ℕ) ^ 25 = 2 * 2 ^ 24 := by norm_num
  omega

/-- Away from the subnormal clamp the rounded mantissa reaches the binade
bottom `2 ^ 23`. -/
theorem f32mant_ge_pow {n : ℕ} (hn : 1 ≤ n) (f : ℤ)
    (hcl : (-149 : ℤ) ≤ (natLog2 n : ℤ) + f - 23) : 2 ^ 23 ≤ f32mant n f := by
  apply f32mant_ge
  have hse : f32se n f = (natLog2 n : ℤ) + f - 23 := max_eq_left hcl
  have h1 : dyv (2 ^ 23 : ℕ) (f32se n f) = dyv 1 ((natLog2 n : ℤ) + f) := by
    rw [dyv_shift 1 (show f32se n f ≤ (natLog2 n : ℤ) + f by omega), one_mul]
    have e0 : ((natLog2 n : ℤ) + f - f32se n f).toNat = 23 := by
      rw [hse]
      omega
    rw [e0]
  rw [h1]
  exact (dyv_binade hn f).1

/-- Inputs below `2 ^ 127` never overflow: rounding returns the canonical
mantissa and scale. -/
theorem roundPosM_small {n : ℕ} (hn : 1 ≤ n) (f : ℤ) (hlt : dyv n f < dyv 1 127) :
    roundPosM n f = some (f32mant n f, f32se n f) := by
  unfold roundPosM
  rw [if_neg (by omega), if_neg]
  have hE : (natLog2 n : ℤ) + f < 127 :=
    dyv_one_lt _ _ (lt_of_le_of_lt (dyv_binade hn f).1 hlt)
  have hse2 : f32se n f ≤ 103 := by
    unfold f32se
    omega
  have hse3 : (-149 : ℤ) ≤ f32se n f := le_max_right _ _
  have h24 : f32mant n f ≤ 2 ^ 24 := f32mant_le_pow hn f
  have h25 : (2 : ℕ) ^ 24 < 2 ^ (128 - f32se n f).toNat := by
    apply Nat.pow_lt_pow_right (by norm_num)
    omega
  omega

/-- Splitting a power of two off a dyadic exponent. -/
theorem dyv_one_split (k : ℕ) (s : ℤ) : dyv 1 (s + k) = dyv (2 ^ k) s := by
  rw [dyv_shift 1 (show s ≤ s + k by omega), one_mul]
  have e0 : (s + k - s).toNat = k := by omega
  rw [e0]

/-- A zero mantissa denotes the value zero. -/
theorem dyv_zero (e : ℤ) : dyv 0 e = 0 := by
  unfold dyv
  simp

/-- The Boolean dyadic equality decides equality of values. -/
theorem dyEqB_eq {n m : ℕ} {e f : ℤ} (h : dyEqB n e m f = true) : dyv n e = dyv m f := by
  unfold dyEqB at h
  split_ifs at h with hfe
  · rw [dyv_shift n hfe, beq_iff_eq.mp h]
  · rw [dyv_shift m (show e ≤ f by omega), beq_iff_eq.mp h]

/-- Rounding a nonzero input only ever returns the canonical pair. -/
theorem roundPosM_some_eq {n : ℕ} {f : ℤ} {p : ℕ × ℤ} (hn : n ≠ 0)
    (h : roundPosM n f = some p) : p = (f32mant n f, f32se n f) := by
  unfold roundPosM at h
  rw [if_neg hn] at h
  split_ifs at h
  exact (Option.some.inj h).symm

/-- On-grid inputs round exactly. -/
theorem f32mant_exact {n : ℕ} {f : ℤ} (h : f32se n f ≤ f) :
    dyv (f32mant n f) (f32se n f) = dyv n f := by
  unfold f32mant
  rw [if_pos h]
  exact (dyv_shift n h).symm

/-- The dyadic floor dominates every natural number below the value. -/
theorem le_dyFloor {k r : ℕ} {e : ℤ} (h : dyv k 0 ≤ dyv r e) : k ≤ dyFloor r e := by
  unfold dyFloor
  split_ifs with he
  · rw [dyv_shift r he, sub_zero] at h
    exact dyv_le_iff.mp h
  · rw [dyv_shift k (show e ≤ (0 : ℤ) by omega), zero_sub] at h
    exact (Nat.le_div_iff_mul_le (Nat.pow_pos (by norm_num))).mpr (dyv_le_iff.mp h)

/-- The saturating cast of a finite nonnegative value dominates every natural
number that is below both the value and the saturation bound. -/
theorem toU64sat_ge {d r : ℕ} {e : ℤ} (hv : dyv d 0 ≤ dyv r e) (hd64 : d ≤ 2 ^ 64 - 1) :
    d ≤ F32.toU64sat (F32.fin false r e) := by
  show d ≤ if false then 0 else min (dyFloor r e) (2 ^ 64 - 1)
  rw [if_neg (by simp)]
  exact le_min (le_dyFloor hv) hd64

/-- A wellformed binary32 value strictly above one is the positive infinity or
a finite value of at least `1 + 2 ^ (-23)`, the successor of one. -/
theorem gtOneB_cases (m : F32) (hwf : F32.wfB m = true) (hgt : F32.gtOneB m = true) :
    m = F32.inf false ∨
      ∃ nm em, m = F32.fin false nm em ∧ 1 ≤ nm ∧ dyv (2 ^ 23 + 1) (-23) ≤ dyv nm em := by
  cases m with
  | nan => exact absurd hgt (by simp [F32.gtOneB])
  | inf neg =>
    cases neg with
    | false => exact Or.inl rfl
    | true => exact absurd hgt (by simp [F32.gtOneB])
  | fin neg nm em =>
    cases neg with
    | true => exact absurd hgt (by simp [F32.gtOneB])
    | false =>
      have hv1 : dyv 1 0 < dyv nm em := by
        by_cases hem : 0 ≤ em
        · have h1 : 1 < nm * 2 ^ em.toNat := by
            simpa [F32.gtOneB, if_pos hem] using hgt
          have hsh : dyv nm em = dyv (nm * 2 ^ em.toNat) 0 := by
            rw [dyv_shift nm hem, sub_zero]
          rw [hsh]
          exact dyv_lt_iff.mpr h1
        · have h1 : 2 ^ (-em).toNat < nm := by
            simpa [F32.gtOneB, if_neg hem] using hgt
          have hsh : dyv 1 0 = dyv (2 ^ (-em).toNat) em := by
            rw [dyv_shift 1 (show em ≤ (0 : ℤ) by omega), one_mul, zero_sub]
          rw [hsh]
          exact dyv_lt_iff.mpr h1
      have hnm1 : 1 ≤ nm := by
        rcases Nat.eq_zero_or_pos nm with h0 | h
        · rw [h0, dyv_zero] at hv1
          exact absurd hv1 (not_lt.mpr (dyv_nonneg 1 0))
        · exact h
      refine Or.inr ⟨nm, em, rfl, hnm1, ?_⟩
      rcases hR : roundPosM nm em with _ | p
      · simp [F32.wfB, hR] at hwf
      · obtain ⟨r, se⟩ := p
        have hEq : dyEqB nm em r se = true := by simpa [F32.wfB, hR] using hwf
        have hre := roundPosM_some_eq (by omega) hR
        have hr1 : r = f32mant nm em := congrArg Prod.fst hre
        have hr2 : se = f32se nm em := congrArg Prod.snd hre
        have hval : dyv nm em = dyv (f32mant nm em) (f32se nm em) := by
          rw [← hr1, ← hr2]
          exact dyEqB_eq hEq
        by_cases h2 : dyv 1 1 ≤ dyv nm em
        · refine le_trans ?_ h2
          have hsp : dyv 1 1 = dyv (2 ^ 24) (-23) := by
            have := dyv_one_split 24 (-23)
            norm_num at this
            exact this
          rw [hsp]
          exact dyv_le_iff.mpr (by norm_num)
        · push_neg at h2
          have hbin := dyv_binade hnm1 em
          have hE1 : (natLog2 nm : ℤ) + em < 1 := dyv_one_lt _ _ (lt_of_le_of_lt hbin.1 h2)
          have hE2 : (0 : ℤ) < (natLog2 nm : ℤ) + em + 1 :=
            dyv_one_lt _ _ (lt_trans hv1 hbin.2)
          have hE0 : (natLog2 nm : ℤ) + em = 0 := by omega
          have hse : f32se nm em = -23 := by
            unfold f32se
            rw [hE0]
            norm_num
          have h1v : dyv 1 0 = dyv (2 ^ 23) (-23) := by
            have := dyv_one_split 23 (-23)
            norm_num at this
            exact this
          rw [hval, hse]
          apply dyv_le_iff.mpr
          rw [hval, hse, h1v] at hv1
          have := dyv_lt_iff.mp hv1
          omega

/-- Grid domination: whenever the input dominates a binade grid point, so does
the rounded value.  This is the monotonicity fact that drives the growth of
the backoff delay. -/
theorem grid_le_f32mant {n : ℕ} (hn : 1 ≤ n) (f : ℤ) {ky : ℕ} {sy : ℤ}
    (hky1 : 2 ^ 23 ≤ ky) (hky2 : ky ≤ 2 ^ 24) (hsy : (-149 : ℤ) ≤ sy)
    (hq : dyv ky sy ≤ dyv n f) :
    dyv ky sy ≤ dyv (f32mant n f) (f32se n f) := by
  have hbin := dyv_binade hn f
  have hy1 : dyv 1 (sy + 23) ≤ dyv ky sy := by
    have hsp := dyv_one_split 23 sy
    push_cast at hsp
    rw [hsp]
    exact dyv_le_iff.mpr hky1
  have hE1 : sy + 23 < (natLog2 n : ℤ) + f + 1 :=
    dyv_one_lt _ _ (lt_of_le_of_lt (le_trans hy1 hq) hbin.2)
  by_cases hcase : sy = (natLog2 n : ℤ) + f - 23
  · have hse : f32se n f = sy := by
      unfold f32se
      rw [← hcase]
      exact max_eq_left hsy
    rw [hse]
    exact dyv_le_iff.mpr (f32mant_ge n f ky (by rw [hse]; exact hq))
  · have hlt : sy + 24 ≤ (natLog2 n : ℤ) + f := by omega
    have hcl : (-149 : ℤ) ≤ (natLog2 n : ℤ) + f - 23 := by omega
    have h23 := f32mant_ge_pow hn f hcl
    have hse : f32se n f = (natLog2 n : ℤ) + f - 23 := max_eq_left hcl
    have hsp : dyv 1 (sy + 24) = dyv (2 ^ 24) sy := by
      have := dyv_one_split 24 sy
      push_cast at this
      exact this
    calc dyv ky sy ≤ dyv (2 ^ 24) sy := dyv_le_iff.mpr hky2
      _ = dyv 1 (sy + 24) := hsp.symm
      _ ≤ dyv 1 ((natLog2 n : ℤ) + f) := dyv_one_mono hlt
      _ = dyv (2 ^ 23) (f32se n f) := by
          rw [hse, ← dyv_one_split 23 ((natLog2 n : ℤ) + f - 23)]
          congr 1
          omega
      _ ≤ dyv (f32mant n f) (f32se n f) := dyv_le_iff.mpr h23

/-- One is the dyadic unit. -/
theorem dyv_one_zero : dyv 1 0 = 1 := by
  unfold dyv
  simp

/-- Growth of the backoff step: multiplying a duration of at most `u64::MAX`
nanoseconds by a wellformed binary32 multiplier above one and casting back
never shrinks it. -/
theorem growth_toU64 {d : ℕ} (m : F32) (hwf : F32.wfB m = true) (hgt : F32.gtOneB m = true)
    (hd64 : d ≤ 2 ^ 64 - 1) : d ≤ F32.toU64sat (F32.mul (toF32ofNat d) m) := by
  rcases Nat.eq_zero_or_pos d with hd0 | hd1
  · rw [hd0]; exact Nat.zero_le _
  have hdlt : dyv d 0 < dyv 1 127 := by
    have hsp : dyv 1 (127 : ℤ) = dyv (2 ^ 127) 0 := by
      have := dyv_one_split 127 0
      push_cast at this
      simpa using this
    rw [hsp]
    apply dyv_lt_iff.mpr
    have : (2 : ℕ) ^ 64 - 1 < 2 ^ 127 := by norm_num
    omega
  have hconv : roundPosM d 0 = some (f32mant d 0, f32se d 0) := roundPosM_small hd1 0 hdlt
  have hT : toF32ofNat d = F32.fin false (f32mant d 0) (f32se d 0) := by
    unfold toF32ofNat roundDy
    rw [hconv]
  have hcl : (-149 : ℤ) ≤ (natLog2 d : ℤ) + 0 - 23 := by
    have : (0 : ℤ) ≤ (natLog2 d : ℤ) := Int.natCast_nonneg _
    omega
  have hrx23 : 2 ^ 23 ≤ f32mant d 0 := f32mant_ge_pow hd1 0 hcl
  have hrx24 : f32mant d 0 ≤ 2 ^ 24 := f32mant_le_pow hd1 0
  have hsxlb : (-149 : ℤ) ≤ f32se d 0 := le_max_right _ _
  rcases gtOneB_cases m hwf hgt with hm | ⟨nm, em, hm, hnm1, hmu⟩
  · subst hm
    rw [hT]
    have hmeq : F32.mul (F32.fin false (f32mant d 0) (f32se d 0)) (F32.inf false)
        = F32.inf false := by
      show (if f32mant d 0 = 0 then F32.nan else F32.inf (xor false false)) = F32.inf false
      rw [if_neg (by omega)]
      rfl
    rw [hmeq]
    show d ≤ 2 ^ 64 - 1
    exact hd64
  · subst hm
    rw [hT]
    have h1v : dyv 1 0 = dyv (2 ^ 23) (-23) := by
      have := dyv_one_split 23 (-23)
      norm_num at this
      exact this
    have hmu1 : dyv 1 0 ≤ dyv nm em := by
      rw [h1v]
      exact le_trans (dyv_le_iff.mpr (by norm_num)) hmu
    have hmu1q : (1 : ℚ) ≤ dyv nm em := by
      rw [← dyv_one_zero]
      exact hmu1
    have hrxnm : 1 ≤ f32mant d 0 * nm := by
      have := Nat.mul_pos (show 0 < f32mant d 0 by omega) (show 0 < nm by omega)
      omega
    have hmeq : F32.mul (F32.fin false (f32mant d 0) (f32se d 0)) (F32.fin false nm em)
        = roundDy false (f32mant d 0 * nm) (f32se d 0 + em) := rfl
    rw [hmeq]
    by_cases hA : dyv d 0 ≤ dyv (f32mant d 0) (f32se d 0)
    · have hq : dyv (f32mant d 0) (f32se d 0) ≤ dyv (f32mant d 0 * nm) (f32se d 0 + em) := by
        rw [← dyv_mul]
        exact le_mul_of_one_le_right (dyv_nonneg _ _) hmu1q
      have hgrid := grid_le_f32mant hrxnm (f32se d 0 + em) hrx23 hrx24 hsxlb hq
      rcases hR : roundPosM (f32mant d 0 * nm) (f32se d 0 + em) with _ | p
      · unfold roundDy
        rw [hR]
        show d ≤ 2 ^ 64 - 1
        exact hd64
      · have hp := roundPosM_some_eq (by omega) hR
        unfold roundDy
        rw [hR, hp]
        exact toU64sat_ge (le_trans hA hgrid) hd64
    · push_neg at hA
      have hsx1 : (0 : ℤ) < f32se d 0 := by
        by_contra hle
        push_neg at hle
        have hex := f32mant_exact (show f32se d 0 ≤ (0 : ℤ) from hle)
        rw [hex] at hA
        exact lt_irrefl _ hA
      have hbind := dyv_binade hd1 0
      have hrxlt : f32mant d 0 < 2 ^ 24 := by
        rcases lt_or_eq_of_le hrx24 with h | h
        · exact h
        · exfalso
          have hse : f32se d 0 = (natLog2 d : ℤ) + 0 - 23 := max_eq_left hcl
          have hsp : dyv (2 ^ 24 : ℕ) ((natLog2 d : ℤ) + 0 - 23)
              = dyv 1 ((natLog2 d : ℤ) + 0 + 1) := by
            rw [dyv_shift 1
              (show (natLog2 d : ℤ) + 0 - 23 ≤ (natLog2 d : ℤ) + 0 + 1 by omega), one_mul]
            have e0 : ((natLog2 d : ℤ) + 0 + 1 - ((natLog2 d : ℤ) + 0 - 23)).toNat = 24 := by
              omega
            rw [e0]
          have hX : dyv (f32mant d 0) (f32se d 0) = dyv 1 ((natLog2 d : ℤ) + 0 + 1) := by
            rw [h, hse]
            exact hsp
          have h2 := hbind.2
          rw [← hX] at h2
          exact absurd h2 (not_lt.mpr hA.le)
      have hstep : dyv (f32mant d 0 + 1) (f32se d 0)
          ≤ dyv (f32mant d 0 * nm) (f32se d 0 + em) := by
        have e1 : dyv (f32mant d 0 + 1) (f32se d 0)
            = dyv ((f32mant d 0 + 1) * 2 ^ 23) (f32se d 0 - 23) := by
          rw [dyv_shift (f32mant d 0 + 1) (show f32se d 0 - 23 ≤ f32se d 0 by omega)]
          have e0 : (f32se d 0 - (f32se d 0 - 23)).toNat = 23 := by omega
          rw [e0]
        have e2 : dyv (f32mant d 0) (f32se d 0) * dyv (2 ^ 23 + 1) (-23)
            = dyv (f32mant d 0 * (2 ^ 23 + 1)) (f32se d 0 - 23) := by
          rw [dyv_mul]
          congr 1
        have e3 : dyv ((f32mant d 0 + 1) * 2 ^ 23) (f32se d 0 - 23)
            ≤ dyv (f32mant d 0 * (2 ^ 23 + 1)) (f32se d 0 - 23) := by
          apply dyv_le_iff.mpr
          have ea : (f32mant d 0 + 1) * 2 ^ 23 = f32mant d 0 * 2 ^ 23 + 2 ^ 23 := by ring
          have eb : f32mant d 0 * (2 ^ 23 + 1) = f32mant d 0 * 2 ^ 23 + f32mant d 0 := by ring
          omega
        have e4 : dyv (f32mant d 0) (f32se d 0) * dyv (2 ^ 23 + 1) (-23)
            ≤ dyv (f32mant d 0) (f32se d 0) * dyv nm em :=
          mul_le_mul_of_nonneg_left hmu (dyv_nonneg _ _)
        calc dyv (f32mant d 0 + 1) (f32se d 0)
            = dyv ((f32mant d 0 + 1) * 2 ^ 23) (f32se d 0 - 23) := e1
          _ ≤ dyv (f32mant d 0 * (2 ^ 23 + 1)) (f32se d 0 - 23) := e3
          _ = dyv (f32mant d 0) (f32se d 0) * dyv (2 ^ 23 + 1) (-23) := e2.symm
          _ ≤ dyv (f32mant d 0) (f32se d 0) * dyv nm em := e4
          _ = dyv (f32mant d 0 * nm) (f32se d 0 + em) := dyv_mul _ _ _ _
      have hd_le : dyv d 0 ≤ dyv (f32mant d 0 + 1) (f32se d 0) := by
        have hlow := f32mant_lower d 0
        have hmono : dyv 1 (f32se d 0 - 1) ≤ dyv 1 (f32se d 0) := dyv_one_mono (by omega)
        have hsum : dyv (f32mant d 0) (f32se d 0) + dyv 1 (f32se d 0)
            = dyv (f32mant d 0 + 1) (f32se d 0) := dyv_add _ _ _
        calc dyv d 0
            ≤ dyv (f32mant d 0) (f32se d 0) + dyv 1 (f32se d 0 - 1) := hlow
          _ ≤ dyv (f32mant d 0) (f32se d 0) + dyv 1 (f32se d 0) := by linarith
          _ = dyv (f32mant d 0 + 1) (f32se d 0) := hsum
      have hgrid := grid_le_f32mant hrxnm (f32se d 0 + em)
        (show 2 ^ 23 ≤ f32mant d 0 + 1 by omega)
        (show f32mant d 0 + 1 ≤ 2 ^ 24 by omega) hsxlb hstep
      rcases hR : roundPosM (f32mant d 0 * nm) (f32se d 0 + em) with _ | p
      · unfold roundDy
        rw [hR]
        show d ≤ 2 ^ 64 - 1
        exact hd64
      · have hp := roundPosM_some_eq (by omega) hR
        unfold roundDy
        rw [hR, hp]
        exact toU64sat_ge (le_trans hd_le hgrid) hd64

/-- The cap branch of the source is a minimum. -/
theorem ite_cap_min (cap nt : ℕ) : (if cap < nt then cap else nt) = min nt cap := by
  split_ifs with h
  · exact (min_eq_right h.le).symm
  · exact (min_eq_left (not_lt.mp h)).symm

/-- A zero current delay advances to zero whatever the multiplier is. -/
theorem toU64_mul_zero (m : F32) : F32.toU64sat (F32.mul (toF32ofNat 0) m) = 0 := by
  have h0 : toF32ofNat 0 = F32.fin false 0 0 := rfl
  rw [h0]
  cases m with
  | nan => rfl
  | inf t =>
    show F32.toU64sat (if (0 : ℕ) = 0 then F32.nan else F32.inf (xor false t)) = 0
    rw [if_pos rfl]
    rfl
  | fin t nm em =>
    show F32.toU64sat (roundDy (xor false t) (0 * nm) (0 + em)) = 0
    rw [Nat.zero_mul]
    show F32.toU64sat (roundDy (xor false t) 0 (0 + em)) = 0
    unfold roundDy roundPosM
    rw [if_pos rfl]
    cases xor false t <;> rfl

/-- Reduction of `wait` on a started state. -/
theorem wait_started (s : ExponentialBackoffWaiter) (cur : ℕ) (h : s.next = some cur) :
    s.wait = .ok ({ s with
      next := some (if s.cap < F32.toU64sat (F32.mul (toF32ofNat cur) s.multiplier)
        then s.cap else F32.toU64sat (F32.mul (toF32ofNat cur) s.multiplier)) }, cur) := by
  unfold ExponentialBackoffWaiter.wait
  rw [h]

/-- Reduction of `async_wait` on a started state. -/
theorem async_wait_started (s : ExponentialBackoffWaiter) (cur : ℕ) (h : s.next = some cur) :
    s.async_wait = ({ s with
      next := some (if s.cap < F32.toU64sat (F32.mul (toF32ofNat cur) s.multiplier)
        then s.cap else F32.toU64sat (F32.mul (toF32ofNat cur) s.multiplier)) }, .timer cur) := by
  unfold ExponentialBackoffWaiter.async_wait
  rw [h]

/-- Reduction of `wait` on an unstarted state. -/
theorem wait_unstarted (s : ExponentialBackoffWaiter) (h : s.next = none) :
    s.wait = .error .notStarted := by
  unfold ExponentialBackoffWaiter.wait
  rw [h]

/-- Reduction of `async_wait` on an unstarted state. -/
theorem async_wait_unstarted (s : ExponentialBackoffWaiter) (h : s.next = none) :
    s.async_wait = (s, .ready (.error .notStarted)) := by
  unfold ExponentialBackoffWaiter.async_wait
  rw [h]

/-- Reduction of `restart` on a started state. -/
theorem restart_started (s : ExponentialBackoffWaiter) (cur : ℕ) (h : s.next = some cur) :
    s.restart = .ok { s with next := some s.initial } := by
  unfold ExponentialBackoffWaiter.restart
  rw [h]

/-- Reduction of `restart` on an unstarted state. -/
theorem restart_unstarted (s : ExponentialBackoffWaiter) (h : s.next = none) :
    s.restart = .error .notStarted := by
  unfold ExponentialBackoffWaiter.restart
  rw [h]

/-- Every operation leaves the three configuration fields unchanged. -/
theorem stepEB_config (s : ExponentialBackoffWaiter) (op : WOp) :
    (stepEB s op).initial = s.initial ∧ (stepEB s op).multiplier = s.multiplier ∧
      (stepEB s op).cap = s.cap := by
  cases op with
  | startOp => exact ⟨rfl, rfl, rfl⟩
  | restartOp =>
    cases hn : s.next with
    | none => rw [stepEB, restart_unstarted s hn]; exact ⟨rfl, rfl, rfl⟩
    | some c => rw [stepEB, restart_started s c hn]; exact ⟨rfl, rfl, rfl⟩
  | waitOp =>
    cases hn : s.next with
    | none => rw [stepEB, wait_unstarted s hn]; exact ⟨rfl, rfl, rfl⟩
    | some c => rw [stepEB, wait_started s c hn]; exact ⟨rfl, rfl, rfl⟩
  | asyncWaitOp =>
    cases hn : s.next with
    | none => rw [stepEB, async_wait_unstarted s hn]; exact ⟨rfl, rfl, rfl⟩
    | some c => rw [stepEB, async_wait_started s c hn]; exact ⟨rfl, rfl, rfl⟩

/-- Any invariant preserved by single steps is preserved by runs. -/
theorem runEB_inv (P : ExponentialBackoffWaiter → Prop)
    (hstep : ∀ s op, P s → P (stepEB s op)) :
    ∀ ops s, P s → P (runEB s ops) := by
  intro ops
  induction ops with
  | nil => intro s h; exact h
  | cons op rest ih => intro s h; exact ih _ (hstep s op h)

/-- Characterization of a step's effect on the delay cell· -/
theorem stepEB_next_cases (s : ExponentialBackoffWaiter) (op : WOp) :
    (stepEB s op).next = s.next ∨ (stepEB s op).next = some s.initial ∨
      ∃ c, s.next = some c ∧ (stepEB s op).next
        = some (if s.cap < F32.toU64sat (F32.mul (toF32ofNat c) s.multiplier) then s.cap
            else F32.toU64sat (F32.mul (toF32ofNat c) s.multiplier)) := by
  cases op with
  | startOp => exact Or.inr (Or.inl rfl)
  | restartOp =>
    rcases hn : s.next with _ | c
    · left
      show (match s.restart with | .ok t => t | .error _ => s).next = none
      rw [restart_unstarted s hn]
      exact hn
    · right; left
      show (match s.restart with | .ok t => t | .error _ => s).next = some s.initial
      rw [restart_started s c hn]
  | waitOp =>
    rcases hn : s.next with _ | c
    · left
      show (match s.wait with | .ok (t, _) => t | .error _ => s).next = none
      rw [wait_unstarted s hn]
      exact hn
    · right; right
      refine ⟨ c, rfl, ?_⟩
      show (match s.wait with | .ok (t, _) => t | .error _ => s).next = _
      rw [wait_started s c hn]
  | asyncWaitOp =>
    rcases hn : s.next with _ | c
    · left
      show (s.async_wait.1).next = none
      rw [async_wait_unstarted s hn]
      exact hn
    · right; right
      refine ⟨ c, rfl, ?_⟩
      show (s.async_wait.1).next = _
      rw [async_wait_started s c hn]

/-- A step leaves the presence of the delay cell unchanged except for `start`· -/
theorem stepEB_none_iff (s : ExponentialBackoffWaiter) (op : WOp) (hop : op ≠ WOp.startOp) :
    ((stepEB s op).next = none ↔ s.next = none) := by
  cases op with
  | startOp => exact absurd rfl hop
  | restartOp =>
    rcases hn : s.next with _ | c
    · show (match s.restart with | .ok t => t | .error _ => s).next = none ↔ _
      rw [restart_unstarted s hn]
      simp [hn]
    · show (match s.restart with | .ok t => t | .error _ => s).next = none ↔ _
      rw [restart_started s c hn]
      simp
  | waitOp =>
    rcases hn : s.next with _ | c
    · show (match s.wait with | .ok (t, _) => t | .error _ => s).next = none ↔ _
      rw [wait_unstarted s hn]
      simp [hn]
    · show (match s.wait with | .ok (t, _) => t | .error _ => s).next = none ↔ _
      rw [wait_started s c hn]
      simp
  | asyncWaitOp =>
    rcases hn : s.next with _ | c
    · show (s.async_wait.1).next = none ↔ _
      rw [async_wait_unstarted s hn]
      simp [hn]
    · show (s.async_wait.1).next = none ↔ _
      rw [async_wait_started s c hn]
      simp

/-- A run never loses the delay cell, and only `start` creates it. -/
theorem runEB_none : ∀ (ops : List WOp) (s : ExponentialBackoffWaiter),
    (runEB s ops).next = none ↔ (s.next = none ∧ WOp.startOp ∉ ops) := by
  intro ops
  induction ops with
  | nil => intro s; simp [runEB]
  | cons op rest ih =>
    intro s
    have hstep : runEB s (op :: rest) = runEB (stepEB s op) rest := rfl
    rw [hstep, ih]
    by_cases hop : op = WOp.startOp
    · subst hop
      have h1 : (stepEB s WOp.startOp).next = some s.initial := rfl
      rw [h1]
      simp
    · rw [stepEB_none_iff s op hop]
      have hmem : (WOp.startOp ∉ op :: rest) ↔ (WOp.startOp ∉ rest) := by
        constructor
        · intro h hm
          exact h (List.mem_cons_of_mem op hm)
        · intro h hm
          rcases List.mem_cons.mp hm with h1 | h2
          · exact hop h1.symm
          · exact h h2
      rw [hmem]

/-- Inversion of a successful `wait`. -/
theorem wait_ok_inv (s t : ExponentialBackoffWaiter) (d : ℕ) (h : s.wait = .ok (t, d)) :
    s.next = some d ∧ t = { s with
      next := some (if s.cap < F32.toU64sat (F32.mul (toF32ofNat d) s.multiplier)
        then s.cap else F32.toU64sat (F32.mul (toF32ofNat d) s.multiplier)) } := by
  rcases hn : s.next with _ | c
  · rw [wait_unstarted s hn] at h
    exact absurd h (by simp)
  · rw [wait_started s c hn] at h
    rw [Except.ok.injEq, Prod.mk.injEq] at h
    obtain ⟨h1, h2⟩ := h
    subst h2
    exact ⟨rfl, h1.symm⟩

/-- Inversion of an `async_wait` that produced a timer. -/
theorem async_wait_timer_inv (s t : ExponentialBackoffWaiter) (d : ℕ)
    (h : s.async_wait = (t, .timer d)) :
    s.next = some d ∧ t = { s with
      next := some (if s.cap < F32.toU64sat (F32.mul (toF32ofNat d) s.multiplier)
        then s.cap else F32.toU64sat (F32.mul (toF32ofNat d) s.multiplier)) } := by
  rcases hn : s.next with _ | c
  · rw [async_wait_unstarted s hn] at h
    exact absurd h (by simp)
  · rw [async_wait_started s c hn] at h
    rw [Prod.mk.injEq, AsyncWaitFuture.timer.injEq] at h
    obtain ⟨h1, h2⟩ := h
    subst h2
    exact ⟨rfl, h1.symm⟩

/-- The completion flag of the shared timer state is never reset. -/
theorem timer_completed_mono : ∀ (evs : List TimerEvent) (st : SharedState),
    st.completed = true → (runTimer st evs).completed = true := by
  intro evs
  induction evs with
  | nil => intro st h; exact h
  | cons ev rest ih =>
    intro st h
    have hstep : runTimer st (ev :: rest) = runTimer (timerStep st ev) rest := rfl
    rw [hstep]
    apply ih
    cases ev with
    | pollEv w =>
      show (pollTimer st w).1.completed = true
      simp [pollTimer, h]
    | fireEv => rfl

/-- C1: on a started exponential backoff waiter, `wait` reads the current delay
`d`, computes `min((f32(d ns) * multiplier) as u64, cap)` by binary32
multiplication truncated (saturating) to integer nanoseconds then clamped to
the cap, stores it as the new current delay, sleeps for the pre-update value
`d`, and returns success. -/
theorem claim_C1_backoff_wait_formula (s : ExponentialBackoffWaiter) (d : ℕ)
    (h : s.next = some d) :
    s.wait = .ok ({ s with
      next := some (min (F32.toU64sat (F32.mul (toF32ofNat d) s.multiplier)) s.cap) }, d) := by
  rw [wait_started s d h, ite_cap_min]

/-- C1 witness: a waiter at 100ns with multiplier 2.0 and cap 1000ns stores
200ns and sleeps 100ns. -/
theorem claim_C1_witness :
    (⟨some 100, 100, mulTwoF32, 1000⟩ : ExponentialBackoffWaiter).wait
      = .ok (⟨some 200, 100, mulTwoF32, 1000⟩, 100) := by
  have h := claim_C1_backoff_wait_formula ⟨some 100, 100, mulTwoF32, 1000⟩ 100 rfl
  rw [h]
  decide

/-- C2: `async_wait` errors exactly when `wait` errors (with the same error and
an unchanged state, as an already-resolved future), and succeeds exactly when
`wait` succeeds, advancing the delay state identically and suspending for the
same pre-update duration that `wait` sleeps. -/
theorem claim_C2_async_wait_equiv (s : ExponentialBackoffWaiter) :
    (∀ e, s.wait = .error e ↔ s.async_wait = (s, .ready (.error e))) ∧
    (∀ t d, s.wait = .ok (t, d) ↔ s.async_wait = (t, .timer d)) ∧
    stepEB s WOp.waitOp = stepEB s WOp.asyncWaitOp := by
  rcases hn : s.next with _ | c
  · refine ⟨?_, ?_, ?_⟩
    · intro e
      cases e
      rw [wait_unstarted s hn, async_wait_unstarted s hn]
      exact iff_of_true rfl rfl
    · intro t d
      rw [wait_unstarted s hn, async_wait_unstarted s hn]
      constructor
      · intro h
        exact absurd h (by simp)
      · intro h
        exfalso
        rw [Prod.mk.injEq] at h
        exact absurd h.2 (by simp)
    · show (match s.wait with | .ok (t, _) => t | .error _ => s) = s.async_wait.1
      rw [wait_unstarted s hn, async_wait_unstarted s hn]
  · refine ⟨?_, ?_, ?_⟩
    · intro e
      rw [wait_started s c hn, async_wait_started s c hn]
      constructor
      · intro h
        exact absurd h (by simp)
      · intro h
        exfalso
        rw [Prod.mk.injEq] at h
        exact absurd h.2 (by simp)
    · intro t d
      rw [wait_started s c hn, async_wait_started s c hn]
      rw [Except.ok.injEq, Prod.mk.injEq, Prod.mk.injEq, AsyncWaitFuture.timer.injEq]
    · show (match s.wait with | .ok (t, _) => t | .error _ => s) = s.async_wait.1
      rw [wait_started s c hn, async_wait_started s c hn]

/-- C2 witness: at a concrete started state both operations advance the state
to the same 200ns delay and both report a 100ns pause. -/
theorem claim_C2_witness :
    (⟨some 100, 100, mulTwoF32, 1000⟩ : ExponentialBackoffWaiter).async_wait
      = (⟨some 200, 100, mulTwoF32, 1000⟩, .timer 100) :=
  ((claim_C2_async_wait_equiv ⟨some 100, 100, mulTwoF32, 1000⟩).2.1
    ⟨some 200, 100, mulTwoF32, 1000⟩ 100).mp (by decide)

/-- C6: once a poll of the timer future reports ready, every later poll also
reports ready, whatever polls or thread-completion events happen in between:
the completed flag is never reset. -/
theorem claim_C6_timer_ready_idempotent (st : SharedState) (w : ℕ)
    (h : (pollTimer st w).2 = some (.ok ())) (evs : List TimerEvent) (w2 : ℕ) :
    (pollTimer (runTimer (pollTimer st w).1 evs) w2).2 = some (.ok ()) := by
  have hc : st.completed = true := by
    by_contra hc
    rw [Bool.not_eq_true] at hc
    simp [pollTimer, hc] at h
  have h1 : (pollTimer st w).1 = st := by simp [pollTimer, hc]
  rw [h1]
  have h2 := timer_completed_mono evs st hc
  simp [pollTimer, h2]

/-- C6 witness: a completed timer stays ready across a fire and a re-poll by a
migrated task. -/
theorem claim_C6_witness :
    (pollTimer (runTimer (pollTimer ⟨true, none⟩ 0).1 [TimerEvent.fireEv, TimerEvent.pollEv 1])
      2).2 = some (.ok ()) :=
  claim_C6_timer_ready_idempotent ⟨true, none⟩ 0 (by decide) [TimerEvent.fireEv, TimerEvent.pollEv 1] 2

/-- C7: on a started waiter, `restart` succeeds, resets the current delay to
`initial`, and the next `wait` then sleeps `initial`. -/
theorem claim_C7_restart_resets (s : ExponentialBackoffWaiter) (d : ℕ) (h : s.next = some d) :
    s.restart = .ok { s with next := some s.initial } ∧
      ∃ t, ({ s with next := some s.initial } : ExponentialBackoffWaiter).wait
        = .ok (t, s.initial) := by
  refine ⟨restart_started s d h, ?_⟩
  exact ⟨_, wait_started { s with next := some s.initial } s.initial rfl⟩

/-- C7 witness: after the delay grew to 400ns, restart brings it back to the
initial 100ns and the next wait sleeps 100ns. -/
theorem claim_C7_witness :
    (⟨some 400, 100, mulTwoF32, 1000⟩ : ExponentialBackoffWaiter).restart
        = .ok ⟨some 100, 100, mulTwoF32, 1000⟩ ∧
      ∃ t, (⟨some 100, 100, mulTwoF32, 1000⟩ : ExponentialBackoffWaiter).wait
        = .ok (t, 100) :=
  claim_C7_restart_resets ⟨some 400, 100, mulTwoF32, 1000⟩ 400 rfl

/-- C9: the fixed throttle waiter always sleeps (or suspends) exactly its
configured duration and succeeds; it holds no mutable state, and `start` and
`restart` are successful no-ops that do not alter later behaviour. -/
theorem claim_C9_fixed_throttle (s : ThrottleWaiter) :
    s.wait = .ok s.throttle ∧ s.async_wait = .timer s.throttle ∧
      s.start = s ∧ s.restart = .ok s ∧
      s.start.wait = .ok s.throttle ∧ s.start.async_wait = .timer s.throttle :=
  ⟨rfl, rfl, rfl, rfl, rfl, rfl⟩

/-- C9 witness: the throttle waiter with a 5ns duration. -/
theorem claim_C9_witness :
    (⟨5⟩ : ThrottleWaiter).wait = .ok 5 ∧ (⟨5⟩ : ThrottleWaiter).async_wait = .timer 5 ∧
      (⟨5⟩ : ThrottleWaiter).start = ⟨5⟩ ∧ (⟨5⟩ : ThrottleWaiter).restart = .ok ⟨5⟩ ∧
      (⟨5⟩ : ThrottleWaiter).start.wait = .ok 5 ∧
      (⟨5⟩ : ThrottleWaiter).start.async_wait = .timer 5 :=
  claim_C9_fixed_throttle ⟨5⟩

/-- Successful `wait` pinned down field by field. -/
theorem wait_ok_next (s t : ExponentialBackoffWaiter) (d : ℕ) (h : s.wait = .ok (t, d)) :
    s.next = some d ∧
    t.next = some (if s.cap < F32.toU64sat (F32.mul (toF32ofNat d) s.multiplier)
      then s.cap else F32.toU64sat (F32.mul (toF32ofNat d) s.multiplier)) ∧
    t.cap = s.cap ∧ t.multiplier = s.multiplier ∧ t.initial = s.initial := by
  obtain ⟨h1, h2⟩ := wait_ok_inv s t d h
  subst h2
  exact ⟨h1, rfl, rfl, rfl, rfl⟩

/-- An `async_wait` that produced a timer, pinned down field by field. -/
theorem async_wait_next (s t : ExponentialBackoffWaiter) (d : ℕ)
    (h : s.async_wait = (t, .timer d)) :
    s.next = some d ∧
    t.next = some (if s.cap < F32.toU64sat (F32.mul (toF32ofNat d) s.multiplier)
      then s.cap else F32.toU64sat (F32.mul (toF32ofNat d) s.multiplier)) ∧
    t.cap = s.cap ∧ t.multiplier = s.multiplier ∧ t.initial = s.initial := by
  obtain ⟨h1, h2⟩ := async_wait_timer_inv s t d h
  subst h2
  exact ⟨h1, rfl, rfl, rfl, rfl⟩

/-- C3 counterexample: with `initial = 2 > cap = 1`, `start` alone already
leaves a present current delay above the cap, so the invariant as stated
fails for arbitrary configurations. -/
theorem claim_C3_counterexample :
    (runEB (ExponentialBackoffWaiter.new 2 mulTwoF32 1) [WOp.startOp]).next = some 2 ∧
      ¬ (2 : ℕ) ≤ 1 := ⟨by decide, by decide⟩

/-- C3 amended: provided the configuration satisfies `initial ≤ cap`, after any
sequence of operations a present current delay is at most the cap (`start` and
`restart` write `initial` unclamped, so the hypothesis is needed; the `wait`
update itself is always clamped). -/
theorem claim_C3_cap_invariant_amended (initial : ℕ) (m : F32) (cap : ℕ)
    (h : initial ≤ cap) (ops : List WOp) (d : ℕ)
    (hd : (runEB (ExponentialBackoffWaiter.new initial m cap) ops).next = some d) :
    d ≤ cap := by
  have hinv := runEB_inv
    (fun t => t.initial ≤ t.cap ∧ ∀ x, t.next = some x → x ≤ t.cap)
    (fun t op hp => by
      obtain ⟨h1, h2⟩ := hp
      obtain ⟨hi, hm2, hc⟩ := stepEB_config t op
      refine ⟨by rw [hi, hc]; exact h1, ?_⟩
      intro x hx
      rw [hc]
      rcases stepEB_next_cases t op with hcase | hcase | ⟨c, hc2, hcase⟩
      · rw [hcase] at hx
        exact h2 x hx
      · rw [hcase] at hx
        rw [← Option.some.inj hx]
        exact h1
      · rw [hcase] at hx
        rw [← Option.some.inj hx]
        split_ifs with hlt
        · exact le_rfl
        · exact not_lt.mp hlt)
    ops (ExponentialBackoffWaiter.new initial m cap)
    ⟨h, by intro x hx; exact absurd hx (by simp [ExponentialBackoffWaiter.new])⟩
  have hcap : (runEB (ExponentialBackoffWaiter.new initial m cap) ops).cap = cap :=
    runEB_inv (fun t => t.cap = cap)
      (fun t op hp => by
        show (stepEB t op).cap = cap
        rw [(stepEB_config t op).2.2]
        exact hp)
      ops _ rfl
  have hx := hinv.2 d hd
  rw [hcap] at hx
  exact hx

/-- C3 witness: a run consisting of one `start` with `initial = 2 ≤ cap = 5`. -/
theorem claim_C3_witness : (2 : ℕ) ≤ 5 :=
  claim_C3_cap_invariant_amended 2 mulTwoF32 5 (by decide) [WOp.startOp] 2 (by decide)

/-- C4 counterexample: multiplier 2.0 with a started delay of 2ns above the cap
of 1ns makes the stored delay shrink from 2ns to 1ns, refuting unconditional
monotone growth for `multiplier > 1`. -/
theorem claim_C4_counterexample :
    mulTwoF32.wfB = true ∧ mulTwoF32.gtOneB = true ∧
      (⟨some 2, 2, mulTwoF32, 1⟩ : ExponentialBackoffWaiter).wait
        = .ok (⟨some 1, 2, mulTwoF32, 1⟩, 2) ∧ ¬ (2 : ℕ) ≤ 1 :=
  ⟨by decide, by decide, by decide, by decide⟩

/-- C4 amended: for a wellformed binary32 multiplier above one, a `wait` or
`async_wait` step never shrinks the stored delay, provided the pre-update
delay is at most the cap and at most `u64::MAX` nanoseconds (beyond either
bound the cap clamp or the saturating `as u64` cast can shrink it). -/
theorem claim_C4_monotone_growth_amended (s : ExponentialBackoffWaiter) (d : ℕ)
    (h : s.next = some d) (hwf : s.multiplier.wfB = true) (hgt : s.multiplier.gtOneB = true)
    (hcap : d ≤ s.cap) (hd64 : d ≤ 2 ^ 64 - 1) :
    (∃ t, s.wait = .ok (t, d) ∧ ∃ x, t.next = some x ∧ d ≤ x ∧ x ≤ s.cap) ∧
    (∃ t fut, s.async_wait = (t, fut) ∧ ∃ x, t.next = some x ∧ d ≤ x ∧ x ≤ s.cap) := by
  have hg := growth_toU64 s.multiplier hwf hgt hd64
  constructor
  · refine ⟨_, wait_started s d h, _, rfl, ?_, ?_⟩
    · split_ifs with hc
      · exact hcap
      · exact hg
    · split_ifs with hc
      · exact le_rfl
      · exact not_lt.mp hc
  · refine ⟨_, _, async_wait_started s d h, _, rfl, ?_, ?_⟩
    · split_ifs with hc
      · exact hcap
      · exact hg
    · split_ifs with hc
      · exact le_rfl
      · exact not_lt.mp hc

/-- C4 witness: from 100ns with multiplier 2.0 and cap 1000ns, both operations
advance the stored delay to a value between 100ns and the cap. -/
theorem claim_C4_witness :
    (∃ t, (⟨some 100, 100, mulTwoF32, 1000⟩ : ExponentialBackoffWaiter).wait = .ok (t, 100) ∧
        ∃ x, t.next = some x ∧ 100 ≤ x ∧ x ≤ 1000) ∧
    (∃ t fut, (⟨some 100, 100, mulTwoF32, 1000⟩ : ExponentialBackoffWaiter).async_wait
        = (t, fut) ∧ ∃ x, t.next = some x ∧ 100 ≤ x ∧ x ≤ 1000) :=
  claim_C4_monotone_growth_amended ⟨some 100, 100, mulTwoF32, 1000⟩ 100 rfl (by decide)
    (by decide) (by decide) (by decide)

/-- Error behaviour of the three fallible operations as a function of the
presence of the delay cell. -/
theorem eb_error_iff (s : ExponentialBackoffWaiter) :
    (s.wait = .error .notStarted ↔ s.next = none) ∧
    (s.restart = .error .notStarted ↔ s.next = none) ∧
    (s.async_wait = (s, .ready (.error .notStarted)) ↔ s.next = none) ∧
    (∀ e, s.wait = .error e → e = .notStarted) ∧
    (∀ e, s.restart = .error e → e = .notStarted) ∧
    (∀ r, s.async_wait.2 = .ready r → s.next = none ∧ r = .error .notStarted) := by
  rcases hn : s.next with _ | cur
  · refine ⟨iff_of_true (wait_unstarted s hn) rfl,
      iff_of_true (restart_unstarted s hn) rfl,
      iff_of_true (async_wait_unstarted s hn) rfl,
      ?_, ?_, ?_⟩
    · intro e _
      cases e
      rfl
    · intro e _
      cases e
      rfl
    · intro r hr
      rw [async_wait_unstarted s hn] at hr
      refine ⟨rfl, ?_⟩
      have := AsyncWaitFuture.ready.inj hr
      exact this.symm
  · refine ⟨iff_of_false (by rw [wait_started s cur hn]; simp) (by simp),
      iff_of_false (by rw [restart_started s cur hn]; simp) (by simp),
      iff_of_false (by rw [async_wait_started s cur hn]; simp) (by simp),
      ?_, ?_, ?_⟩
    · intro e _
      cases e
      rfl
    · intro e _
      cases e
      rfl
    · intro r hr
      rw [async_wait_started s cur hn] at hr
      exact absurd hr (by simp)

/-- C5: on any reachable waiter, the delay cell is absent exactly when `start`
never ran; `wait`, `restart` fail (as returned values) with `NotStarted`
exactly in that case, `NotStarted` is the only error either ever returns, and
`async_wait` yields an already-resolved `NotStarted` failure instead of a
timer exactly in that case. -/
theorem claim_C5_not_started_errors (i : ℕ) (m : F32) (c : ℕ) (ops : List WOp)
    (s : ExponentialBackoffWaiter)
    (hs : s = runEB (ExponentialBackoffWaiter.new i m c) ops) :
    (s.next = none ↔ WOp.startOp ∉ ops) ∧
    (s.wait = .error .notStarted ↔ s.next = none) ∧
    (s.restart = .error .notStarted ↔ s.next = none) ∧
    (s.async_wait = (s, .ready (.error .notStarted)) ↔ s.next = none) ∧
    (∀ e, s.wait = .error e → e = .notStarted) ∧
    (∀ e, s.restart = .error e → e = .notStarted) ∧
    (∀ r, s.async_wait.2 = .ready r → s.next = none ∧ r = .error .notStarted) := by
  subst hs
  obtain ⟨e1, e2, e3, e4, e5, e6⟩ := eb_error_iff (runEB (ExponentialBackoffWaiter.new i m c) ops)
  refine ⟨?_, e1, e2, e3, e4, e5, e6⟩
  rw [runEB_none]
  simp [ExponentialBackoffWaiter.new]

/-- C5 witness: a never-started waiter fails `wait` with `NotStarted`. -/
theorem claim_C5_witness :
    (ExponentialBackoffWaiter.new 0 mulTwoF32 5).wait = .error .notStarted :=
  (claim_C5_not_started_errors 0 mulTwoF32 5 [] _ rfl).2.1.mpr rfl

/-- C8 counterexample: with `cap = 0` but `initial = 1`, the first `wait`
after `start` sleeps 1ns, not 0ns, so not every wait is a no-op. -/
theorem claim_C8_counterexample :
    (ExponentialBackoffWaiter.new 1 mulTwoF32 0).start.wait
      = .ok (⟨some 0, 1, mulTwoF32, 0⟩, 1) ∧ (1 : ℕ) ≠ 0 :=
  ⟨by decide, by decide⟩

/-- C8 amended: with `initial = 0` every `wait`/`async_wait` on any reachable
state sleeps zero; with `cap = 0` the stored delay is zero after any
successful `wait`, so every wait except the first after a `start`/`restart`
sleeps zero (the first sleeps `initial`). -/
theorem claim_C8_zero_noop_amended (m : F32) (ops : List WOp) :
    (∀ cap, (∀ t d, (runEB (ExponentialBackoffWaiter.new 0 m cap) ops).wait = .ok (t, d) →
        d = 0) ∧
      (∀ t d, (runEB (ExponentialBackoffWaiter.new 0 m cap) ops).async_wait = (t, .timer d) →
        d = 0)) ∧
    (∀ i t d t2 d2, (runEB (ExponentialBackoffWaiter.new i m 0) ops).wait = .ok (t, d) →
      t.wait = .ok (t2, d2) → d2 = 0) := by
  constructor
  · intro cap
    have hinv := runEB_inv (fun u => u.initial = 0 ∧ ∀ x, u.next = some x → x = 0)
      (fun u op hp => by
        obtain ⟨h1, h2⟩ := hp
        obtain ⟨hi, hm2, hc⟩ := stepEB_config u op
        refine ⟨by rw [hi]; exact h1, ?_⟩
        intro x hx
        rcases stepEB_next_cases u op with hcase | hcase | ⟨cc, hc2, hcase⟩
        · rw [hcase] at hx
          exact h2 x hx
        · rw [hcase] at hx
          rw [← Option.some.inj hx]
          exact h1
        · rw [hcase] at hx
          have hz : cc = 0 := h2 cc hc2
          rw [hz, toU64_mul_zero] at hx
          rw [if_neg (Nat.not_lt_zero u.cap)] at hx
          exact (Option.some.inj hx).symm)
      ops (ExponentialBackoffWaiter.new 0 m cap)
      ⟨rfl, by intro x hx; exact absurd hx (by simp [ExponentialBackoffWaiter.new])⟩
    constructor
    · intro t d hw
      obtain ⟨hn, _⟩ := wait_ok_next _ t d hw
      exact hinv.2 d hn
    · intro t d ha
      obtain ⟨hn, _⟩ := async_wait_next _ t d ha
      exact hinv.2 d hn
  · intro i t d t2 d2 hw hw2
    have hcap : (runEB (ExponentialBackoffWaiter.new i m 0) ops).cap = 0 :=
      runEB_inv (fun u => u.cap = 0)
        (fun u op hp => by
          show (stepEB u op).cap = 0
          rw [(stepEB_config u op).2.2]
          exact hp)
        ops _ rfl
    obtain ⟨hn, htn, htc, _, _⟩ := wait_ok_next _ t d hw
    rw [hcap] at htn
    have ht0 : t.next = some 0 := by
      rw [htn]
      congr 1
      split_ifs with hh
      · rfl
      · omega
    obtain ⟨hn2, _, _, _, _⟩ := wait_ok_next t t2 d2 hw2
    rw [ht0] at hn2
    exact (Option.some.inj hn2).symm

/-- C8 witness: with `initial = 0` a wait after `start` sleeps 0; with
`cap = 0` the wait following the first one sleeps 0. -/
theorem claim_C8_witness : (0 : ℕ) = 0 ∧ (0 : ℕ) = 0 :=
  ⟨((claim_C8_zero_noop_amended mulTwoF32 [WOp.startOp]).1 7).1
      ⟨some 0, 0, mulTwoF32, 7⟩ 0 (by decide),
    (claim_C8_zero_noop_amended mulTwoF32 [WOp.startOp]).2 3
      ⟨some 0, 3, mulTwoF32, 0⟩ 3 ⟨some 0, 3, mulTwoF32, 0⟩ 0 (by decide) (by decide)⟩

/-- C10: cloning a waiter copies the configuration and snapshots the delay
cell into a freshly allocated cell (never sharing the original cell), so a
subsequent `wait`, `async_wait`, `restart`, or `start` on either copy leaves
the other copy's cell unchanged; an unstarted waiter clones to an identical
stateless copy. -/
theorem claim_C10_clone_independent (s : EBWaiterH) (σ : RCStore) :
    (s.next = none → cloneEB s σ = (s, σ)) ∧
    (∀ a, s.next = some a → a < σ.length →
      (cloneEB s σ).1.next = some σ.length ∧
      ((cloneEB s σ).2.get? σ.length).getD 0 = (σ.get? a).getD 0 ∧
      (cloneEB s σ).2.get? a = σ.get? a ∧
      (∀ s2 d, waitH (cloneEB s σ).1 (cloneEB s σ).2 = .ok (s2, d) →
        s2.get? a = (cloneEB s σ).2.get? a) ∧
      (∀ s2 d, waitH s (cloneEB s σ).2 = .ok (s2, d) →
        s2.get? σ.length = (cloneEB s σ).2.get? σ.length) ∧
      (∀ s2 fut, asyncWaitH (cloneEB s σ).1 (cloneEB s σ).2 = (s2, fut) →
        s2.get? a = (cloneEB s σ).2.get? a) ∧
      (∀ s2 fut, asyncWaitH s (cloneEB s σ).2 = (s2, fut) →
        s2.get? σ.length = (cloneEB s σ).2.get? σ.length) ∧
      (∀ s2, restartH (cloneEB s σ).1 (cloneEB s σ).2 = .ok s2 →
        s2.get? a = (cloneEB s σ).2.get? a) ∧
      (∀ s2, restartH s (cloneEB s σ).2 = .ok s2 →
        s2.get? σ.length = (cloneEB s σ).2.get? σ.length) ∧
      (∀ x, x < σ.length → (startH (cloneEB s σ).1 (cloneEB s σ).2).2.get? x
        = (cloneEB s σ).2.get? x) ∧
      ((startH s (cloneEB s σ).2).2.get? σ.length
        = (cloneEB s σ).2.get? σ.length)) := by
  constructor
  · intro h
    unfold cloneEB
    rw [h]
  · intro a ha hlen
    have hcl : cloneEB s σ = ({ s with next := some σ.length }, σ ++ [(σ.get? a).getD 0]) := by
      unfold cloneEB
      rw [ha]
    have hne : σ.length ≠ a := fun hcon => absurd (hcon ▸ hlen) (lt_irrefl _)
    rw [hcl]
    refine ⟨rfl, ?_, ?_, ?_, ?_, ?_, ?_, ?_, ?_, ?_, ?_⟩
    · rw [List.get?_concat_length]
      rfl
    · exact List.get?_append hlen
    · intro s2 d hw
      simp only [waitH, Except.ok.injEq, Prod.mk.injEq] at hw
      rw [← hw.1]
      exact List.get?_set_ne _ _ hne
    · intro s2 d hw
      rcases hsn : s.next with _ | b
      · rw [hsn] at ha
        exact absurd ha (by simp)
      · rw [hsn] at ha
        have hb : b = a := Option.some.inj ha
        subst hb
        simp only [waitH, hsn, Except.ok.injEq, Prod.mk.injEq] at hw
        rw [← hw.1]
        exact List.get?_set_ne _ _ (fun hcon => hne hcon.symm)
    · intro s2 fut hw
      simp only [asyncWaitH, Prod.mk.injEq] at hw
      rw [← hw.1]
      exact List.get?_set_ne _ _ hne
    · intro s2 fut hw
      rcases hsn : s.next with _ | b
      · rw [hsn] at ha
        exact absurd ha (by simp)
      · rw [hsn] at ha
        have hb : b = a := Option.some.inj ha
        subst hb
        simp only [asyncWaitH, hsn, Prod.mk.injEq] at hw
        rw [← hw.1]
        exact List.get?_set_ne _ _ (fun hcon => hne hcon.symm)
    · intro s2 hr
      simp only [restartH, Except.ok.injEq] at hr
      rw [← hr]
      exact List.get?_set_ne _ _ hne
    · intro s2 hr
      rcases hsn : s.next with _ | b
      · rw [hsn] at ha
        exact absurd ha (by simp)
      · rw [hsn] at ha
        have hb : b = a := Option.some.inj ha
        subst hb
        simp only [restartH, hsn, Except.ok.injEq] at hr
        rw [← hr]
        exact List.get?_set_ne _ _ (fun hcon => hne hcon.symm)
    · intro x hx
      exact List.get?_append (by
        rw [List.length_append]
        omega)
    · exact List.get?_append (by
        rw [List.length_append, List.length_singleton]
        omega)

/-- C10 witness: cloning a started waiter and calling `async_wait` on the
clone leaves the original's cell at its old value. -/
theorem claim_C10_witness :
    ([5, 9] : RCStore).get? 0 = ((cloneEB ⟨some 0, 7, mulTwoF32, 9⟩ [5]).2).get? 0 :=
  ((claim_C10_clone_independent ⟨some 0, 7, mulTwoF32, 9⟩ [5]).2 0 rfl
    (by decide)).2.2.2.2.2.1 [5, 9] (.timer 5) (by decide)
